import Mathlib

/-!
Verification of the promptpig extraction/parse/validate pipeline.

The TypeScript source (src/index.ts) is shallowly embedded below:
  * `extractCode`   — the fenced-block extractor built on the regex
                      `\n? *```\w* *\n?` and `matchAll`;
  * `parseAny`      — the tolerant parser cascade (PartialJSON, then YAML,
                      then the raw text); the two external library parsers
                      are parameters returning `Option JValue`, where
                      `none` models a thrown exception;
  * `Prompt.run`    — the batch pipeline;
  * `Prompt.stream` — the streaming pipeline, modelled as a pure function
                      from the list of upstream fragments to the list of
                      yielded items (a fragment is `Option String`:
                      `none` models a delta without string content);
  * `PromptPig.prompt` model-selection logic.

The zod schema object is abstracted as a `Schema`: its runtime class
(`ZodString` / `ZodArray` / `ZodObject` / anything else) becomes
`SchemaKind`, `safeParse` becomes `validate`, and `element.safeParse`
becomes `elemValidate`, all black boxes exactly as the code uses them.
-/

namespace PromptPig

/-- Structured candidate values produced by the tolerant parsers
(the JSON/YAML value universe). -/
inductive JValue where
  | str (s : String)
  | num (n : Int)
  | bool (b : Bool)
  | null
  | arr (elems : List JValue)
  | obj (fields : List (String × JValue))
deriving Repr

/-! ## Block Extractor (`extractCode`, src/index.ts lines 54-69)

The regex `/\n? *```\w* *\n?/g` is embedded as a deterministic matcher:
for this pattern greedy matching never needs backtracking (if the
mandatory three backticks are not reached after greedily consuming the
optional `\n` and the spaces, no other split of those optional parts can
reach them either), so `matchLen` computes exactly the JS match length at
a given start position, and `matchAllAux` reproduces `matchAll`'s
left-to-right non-overlapping scan. -/

/-- JS `\w` (no unicode flag): ASCII letters, digits, underscore. -/
def isWordChar (c : Char) : Bool :=
  c.isAlpha || c.isDigit || c = '_'

/-- Length of the regex match `\n? *```\w* *\n?` starting at the head of
`l`, or `none` if the regex does not match there. -/
def matchLen (l : List Char) : Option Nat :=
  let n1 := if l.head? = some '\n' then 1 else 0
  let l1 := l.drop n1
  let s1 := (l1.takeWhile (fun c => c = ' ')).length
  let l2 := l1.drop s1
  if l2.take 3 = ['`', '`', '`'] then
    let l3 := l2.drop 3
    let w := (l3.takeWhile isWordChar).length
    let l4 := l3.drop w
    let s2 := (l4.takeWhile (fun c => c = ' ')).length
    let l5 := l4.drop s2
    let n2 := if l5.head? = some '\n' then 1 else 0
    some (n1 + s1 + 3 + w + s2 + n2)
  else
    none

/-- `matchAll` scan: at each position try the regex; on a match record
`(position, length)` and resume after it, otherwise advance one
character.  `fuel` is an upper bound on the remaining scan steps (every
step consumes at least one character, so `l.length` suffices); it only
makes the recursion structural. -/
def matchAllAux : Nat → List Char → Nat → List (Nat × Nat)
  | 0, _, _ => []
  | _, [], _ => []
  | fuel + 1, c :: rest, pos =>
    match matchLen (c :: rest) with
    | some n => (pos, n) :: matchAllAux fuel ((c :: rest).drop n) (pos + n)
    | none => matchAllAux fuel rest (pos + 1)

/-- All matches of the fence regex in `l`, as `(index, length)` pairs. -/
def matchAllFence (l : List Char) : List (Nat × Nat) :=
  matchAllAux l.length l 0

/-- `extractCode` (src/index.ts lines 54-69) on the character list:
no match → the text itself; one match → everything after it
(`text.slice(index + length)`); two or more → the text strictly between
the end of the first and the start of the second
(`text.slice(start, end)`). -/
def extractCode (t : List Char) : List Char :=
  match matchAllFence t with
  | [] => t
  | [(i, n)] => t.drop (i + n)
  | (i, n) :: (j, _) :: _ => (t.take j).drop (i + n)

/-- `extractCode` on strings. -/
def extractCodeS (s : String) : String :=
  ⟨extractCode s.data⟩

/-! ## Tolerant Structured Parser (`parseAny`, src/index.ts lines 71-81)

`PartialJSON.parse` and `YAML.parse` are external libraries; they are
parameters `pj` and `ym`, with `none` standing for a thrown exception
(the `catch` branches). -/

/-- `parseAny`: try `PartialJSON.parse`, on exception try `YAML.parse`,
on exception return the raw text. -/
def parseAny (pj ym : String → Option JValue) (text : String) : JValue :=
  match pj text with
  | some v => v
  | none =>
    match ym text with
    | some v => v
    | none => .str text

/-- Modelled from the spec: "attempt decoding in a fixed priority order
and return the first success", with the raw window text as the final
fallback (spec §4.2).  Used only to compare against `parseAny`. -/
def parseAnySpec (pj ym : String → Option JValue) (text : String) : JValue :=
  (Option.orElse (pj text) (fun _ => ym text)).getD (.str text)

/-! ## Schema abstraction

The code inspects the zod schema only through `instanceof ZodArray`,
`instanceof ZodObject`, `instanceof ZodString`, `schema.safeParse` and
`schema.element.safeParse`; `SchemaKind` and the two validator fields
capture exactly those capabilities.  A successful `safeParse` returns
the typed data (`some v`), a failed one returns `none`. -/

inductive SchemaKind where
  | sstr
  | sarr
  | sobj
  | sother
deriving Repr, DecidableEq

structure Schema where
  kind : SchemaKind
  validate : JValue → Option JValue
  elemValidate : JValue → Option JValue

/-- Whole-array validation of a zod array schema without collection
constraints: every element must pass the element validator and the
validated elements are returned in order (models
`z.array(elem).safeParse`). -/
def arrValidate (ve : JValue → Option JValue) : JValue → Option JValue
  | .arr xs => (xs.mapM ve).map JValue.arr
  | _ => none

/-! ## Batch Pipeline (`Prompt.run`, src/index.ts lines 160-183) -/

/-- The candidate value `run` builds from a present message text:
fence extraction only for array/object schemas, tolerant parsing unless
the schema is a string schema. -/
def runData (sch : Schema) (pj ym : String → Option JValue) (m : String) : JValue :=
  let isCode := sch.kind = .sarr ∨ sch.kind = .sobj
  let extract := if isCode then extractCodeS m else m
  if sch.kind = .sstr then JValue.str extract else parseAny pj ym extract

/-- `Prompt.run` after the upstream call: `msg` is
`completion.choices[0]?.message.content` (`none` when that is not a
string).  Returns the validated value or `none`. -/
def run (sch : Schema) (pj ym : String → Option JValue) (msg : Option String) :
    Option JValue :=
  match msg with
  | none => none
  | some m => sch.validate (runData sch pj ym m)

/-! ## Client model selection (`PromptPig.prompt`, src/index.ts 112-128)

`const model = this.model ?? options?.model; if (!model) throw ...` —
`??` prefers the client-level model; `!model` is true for a missing
model and for the empty string. -/

def promptModel (clientModel optionsModel : Option String) : Except String String :=
  let model := match clientModel with
    | some m => some m
    | none => optionsModel
  match model with
  | some m =>
    if m = "" then
      .error "A model needs to be provided in the PromptPig options or in the .prompt() options."
    else .ok m
  | none =>
    .error "A model needs to be provided in the PromptPig options or in the .prompt() options."

/-! ## Streaming Pipeline (`Prompt.stream`, src/index.ts lines 190-232) -/

/-- Mutable state of one stream invocation: the accumulation buffer and
the emission cursor (`let buffer = ''; let itemsDone = 0`). -/
structure StState where
  buffer : String
  itemsDone : Nat
deriving Repr, DecidableEq

/-- The loop `for (let i = itemsDone; i < stop; i++)` of the streaming
pipeline, unrolled over its iteration count: validate `data[i]`, yield
on success, and advance `itemsDone` unconditionally.  Returns the final
cursor and the yielded values. -/
def emitGo (ve : JValue → Option JValue) (xs : List JValue) : Nat → Nat → Nat × List JValue
  | 0, i => (i, [])
  | fuel + 1, i =>
    let r := emitGo ve xs fuel (i + 1)
    match (xs[i]?).bind ve with
    | some y => (r.1, y :: r.2)
    | none => r

/-- The emission loop from cursor `i` up to (excluding) `stop`. -/
def emitLoop (ve : JValue → Option JValue) (xs : List JValue) (i stop : Nat) :
    Nat × List JValue :=
  emitGo ve xs (stop - i) i

/-- Processing of one non-empty fragment under an array schema
(src/index.ts lines 211-220): append to the buffer, re-extract and
re-parse the whole buffer, and if the candidate is an array emit the
newly confirmed elements up to (excluding) the current last index.
`xs.length - 1` is the JS `data.length - 1` loop bound; for an empty
array both run zero iterations. -/
def stepArr (pj ym : String → Option JValue) (ve : JValue → Option JValue)
    (st : StState) (m : String) : StState × List JValue :=
  let buffer := st.buffer ++ m
  match parseAny pj ym (extractCodeS buffer) with
  | .arr xs =>
    let r := emitLoop ve xs st.itemsDone (xs.length - 1)
    (⟨buffer, r.1⟩, r.2)
  | _ => (⟨buffer, st.itemsDone⟩, [])

/-- The `for await` loop (src/index.ts lines 202-221): skip deltas
without string content and empty fragments; for non-array schemas yield
the raw fragment (the buffer is not even appended, since the code
`continue`s first); for array schemas run `stepArr`.  The generator's
emissions are concatenated in order. -/
def streamSteps (sch : Schema) (pj ym : String → Option JValue) :
    StState → List (Option String) → StState × List JValue
  | st, [] => (st, [])
  | st, f :: fs =>
    match f with
    | none => streamSteps sch pj ym st fs
    | some m =>
      if m.length = 0 then streamSteps sch pj ym st fs
      else if sch.kind = .sarr then
        let r := stepArr pj ym sch.elemValidate st m
        let rr := streamSteps sch pj ym r.1 fs
        (rr.1, r.2 ++ rr.2)
      else
        let rr := streamSteps sch pj ym st fs
        (rr.1, JValue.str m :: rr.2)

/-- The drain phase for an array schema (src/index.ts lines 224-231):
re-extract and re-parse the final buffer and emit every remaining
element through the true end of the array (`i < data.length`). -/
def drainArr (pj ym : String → Option JValue) (ve : JValue → Option JValue)
    (st : StState) : List JValue :=
  match parseAny pj ym (extractCodeS st.buffer) with
  | .arr xs => (emitLoop ve xs st.itemsDone xs.length).2
  | _ => []

/-- `Prompt.stream` as the list of yielded items over an upstream
fragment list (src/index.ts lines 190-232).  For non-array schemas the
drain phase returns immediately (`if (!(this.schema instanceof
ZodArray)) return`). -/
def streamRun (sch : Schema) (pj ym : String → Option JValue)
    (frags : List (Option String)) : List JValue :=
  let r := streamSteps sch pj ym ⟨"", 0⟩ frags
  if sch.kind = .sarr then r.2 ++ drainArr pj ym sch.elemValidate r.1
  else r.2

/-- Concatenation of the textual fragments, in arrival order: the
complete response text that a batch run over the same answer would see,
and the final contents of the accumulation buffer. -/
def fullTextOf : List (Option String) → String
  | [] => ""
  | none :: fs => fullTextOf fs
  | some m :: fs => m ++ fullTextOf fs

/-! ## Indexed mirror of the streaming emissions

The generator yields bare values; to state the cursor/ordering
invariants each emission is tagged with the array index it came from.
`emitGoIdx`/`stepArrIdx`/`streamIdxSteps`/`streamIdxRun` are the same
functions as `emitGo`/`stepArr`/`streamSteps`/`streamRun` (array-schema
path) except that every yielded value carries its source index; the
lemma `streamRun_eq_idx` below proves the projection agreement. -/

def emitGoIdx (ve : JValue → Option JValue) (xs : List JValue) :
    Nat → Nat → Nat × List (Nat × JValue)
  | 0, i => (i, [])
  | fuel + 1, i =>
    let r := emitGoIdx ve xs fuel (i + 1)
    match (xs[i]?).bind ve with
    | some y => (r.1, (i, y) :: r.2)
    | none => r

def emitLoopIdx (ve : JValue → Option JValue) (xs : List JValue) (i stop : Nat) :
    Nat × List (Nat × JValue) :=
  emitGoIdx ve xs (stop - i) i

def stepArrIdx (pj ym : String → Option JValue) (ve : JValue → Option JValue)
    (st : StState) (m : String) : StState × List (Nat × JValue) :=
  let buffer := st.buffer ++ m
  match parseAny pj ym (extractCodeS buffer) with
  | .arr xs =>
    let r := emitLoopIdx ve xs st.itemsDone (xs.length - 1)
    (⟨buffer, r.1⟩, r.2)
  | _ => (⟨buffer, st.itemsDone⟩, [])

def streamIdxSteps (pj ym : String → Option JValue) (ve : JValue → Option JValue) :
    StState → List (Option String) → StState × List (Nat × JValue)
  | st, [] => (st, [])
  | st, f :: fs =>
    match f with
    | none => streamIdxSteps pj ym ve st fs
    | some m =>
      if m.length = 0 then streamIdxSteps pj ym ve st fs
      else
        let r := stepArrIdx pj ym ve st m
        let rr := streamIdxSteps pj ym ve r.1 fs
        (rr.1, r.2 ++ rr.2)

def streamIdxRun (pj ym : String → Option JValue) (ve : JValue → Option JValue)
    (frags : List (Option String)) : List (Nat × JValue) :=
  let r := streamIdxSteps pj ym ve ⟨"", 0⟩ frags
  match parseAny pj ym (extractCodeS r.1.buffer) with
  | .arr xs => r.2 ++ (emitLoopIdx ve xs r.1.itemsDone xs.length).2
  | _ => r.2

/-! ## Concrete instantiations

For witnesses and counterexamples the two external parsers are
instantiated with executable stand-ins that agree with the real
libraries on every input that reaches them in the developments below
(flat JSON arrays of integers, bare integers, and the empty string). -/

/-- Longest digit run at the head of `l`, as a number plus the rest. -/
def parseNatL (l : List Char) : Option (Nat × List Char) :=
  let ds := l.takeWhile Char.isDigit
  if ds.length = 0 then none
  else some (ds.foldl (fun acc c => acc * 10 + (c.toNat - 48)) 0, l.drop ds.length)

/-- Body of a (possibly truncated) JSON array of integers, after the
opening bracket, as `PartialJSON.parse` completes it: input exhausted
mid-array (also right after a trailing comma or a complete element)
closes the array; trailing characters after the closing bracket are a
parse error.  `fuel` only makes the recursion structural. -/
def parseArrAux : Nat → List Char → List JValue → Option JValue
  | 0, _, _ => none
  | _, [], acc => some (.arr acc.reverse)
  | _, ']' :: rest, acc => if rest = [] then some (.arr acc.reverse) else none
  | fuel + 1, l, acc =>
    match parseNatL l with
    | some (n, rest) =>
      match rest with
      | [] => some (.arr (acc.reverse ++ [JValue.num n]))
      | ',' :: rest2 => parseArrAux fuel rest2 (JValue.num n :: acc)
      | ']' :: rest2 =>
        if rest2 = [] then some (.arr (acc.reverse ++ [JValue.num n])) else none
      | _ => none
    | none => none

/-- Stand-in for `PartialJSON.parse` on integer arrays and bare
integers; everything else (in particular the empty string) throws. -/
def cpj (s : String) : Option JValue :=
  match s.data with
  | '[' :: rest => parseArrAux rest.length rest []
  | l =>
    match parseNatL l with
    | some (n, []) => some (.num n)
    | _ => none

/-- Stand-in for `YAML.parse` on the only input it is ever consulted on
below: the empty document parses to `null`; elsewhere it throws. -/
def cym (s : String) : Option JValue :=
  if s = "" then some JValue.null else none

/-- Element validator of `z.array(z.number())` on integer values. -/
def numValidate : JValue → Option JValue
  | .num n => some (.num n)
  | _ => none

/-- A `z.array(z.number())`-like schema. -/
def arrSchema : Schema := ⟨.sarr, arrValidate numValidate, numValidate⟩

/-- A `z.object(...)`-like schema (accepts any object value). -/
def objSchema : Schema :=
  ⟨.sobj, fun v => match v with | .obj f => some (.obj f) | _ => none, fun _ => none⟩

/-- A `z.number()`-like schema: neither string, array nor object. -/
def numSchema : Schema := ⟨.sother, numValidate, numValidate⟩

/-- Fragments whose mid-stream candidates lose elements: a bare array is
followed by an opening fence, which re-windows the buffer to the text
after the fence. -/
def fragsShrink : List (Option String) :=
  [some "[1,2,3]", some "\n```\n", some "[9]"]

/-- The same scenario with the fence closed, so that the batch run over
the concatenated text extracts and validates only `[9]`. -/
def fragsRewindow : List (Option String) :=
  [some "[1,2,3]", some "\n```\n[9]\n```"]

/-- A well-behaved fragment sequence: the array only ever grows. -/
def fragsGrow : List (Option String) :=
  [some "[1,", some "2,3]"]

/-! # Lemmas and claim theorems -/

/-- The emission loop unrolls to a `filterMap` over the index range: each
index is looked up, validated, and kept exactly when validation
succeeds; the final cursor is the start plus the iteration count. -/
lemma emitGo_spec (ve : JValue → Option JValue) (xs : List JValue) :
    ∀ fuel i, emitGo ve xs fuel i
      = (i + fuel, (List.range' i fuel).filterMap (fun j => (xs[j]?).bind ve)) := by
  intro fuel
  induction fuel with
  | zero => intro i; rfl
  | succ n ih =>
    intro i
    rw [List.range'_succ]
    cases h : (xs[i]?).bind ve with
    | none =>
      simp only [emitGo, h, ih (i + 1), List.filterMap_cons, Prod.mk.injEq]
      exact ⟨by omega, trivial⟩
    | some y =>
      simp only [emitGo, h, ih (i + 1), List.filterMap_cons, Prod.mk.injEq]
      exact ⟨by omega, trivial⟩

/-- Indexed variant of `emitGo_spec`. -/
lemma emitGoIdx_spec (ve : JValue → Option JValue) (xs : List JValue) :
    ∀ fuel i, emitGoIdx ve xs fuel i
      = (i + fuel, (List.range' i fuel).filterMap
          (fun j => ((xs[j]?).bind ve).map (fun y => (j, y)))) := by
  intro fuel
  induction fuel with
  | zero => intro i; rfl
  | succ n ih =>
    intro i
    rw [List.range'_succ]
    cases h : (xs[i]?).bind ve with
    | none =>
      simp only [emitGoIdx, h, ih (i + 1), List.filterMap_cons, Option.map_none',
        Prod.mk.injEq]
      exact ⟨by omega, trivial⟩
    | some y =>
      simp only [emitGoIdx, h, ih (i + 1), List.filterMap_cons, Option.map_some',
        Prod.mk.injEq]
      exact ⟨by omega, trivial⟩

/-- An indexed emission remembers its source index. -/
lemma idx_key_eq (ve : JValue → Option JValue) (xs : List JValue) (j : Nat)
    (p : Nat × JValue) (h : ((xs[j]?).bind ve).map (fun y => (j, y)) = some p) :
    p.1 = j := by
  cases hb : (xs[j]?).bind ve with
  | none => rw [hb] at h; exact Option.noConfusion h
  | some y =>
    rw [hb] at h
    injection h with h2
    rw [← h2]

/-- Every indexed emission over `range' i fuel` has its index in
`[i, i + fuel)`. -/
lemma idx_emit_bounds (ve : JValue → Option JValue) (xs : List JValue) (fuel i : Nat) :
    ∀ p ∈ (List.range' i fuel).filterMap
        (fun j => ((xs[j]?).bind ve).map (fun y => (j, y))),
      i ≤ p.1 ∧ p.1 < i + fuel := by
  intro p hp
  rcases List.mem_filterMap.mp hp with ⟨j, hj, hjp⟩
  have hk := idx_key_eq ve xs j p hjp
  rcases List.mem_range'_1.mp hj with ⟨h1, h2⟩
  omega

/-- Indexed emissions come out in strictly increasing index order. -/
lemma idx_emit_pairwise (ve : JValue → Option JValue) (xs : List JValue) :
    ∀ fuel i, ((List.range' i fuel).filterMap
        (fun j => ((xs[j]?).bind ve).map (fun y => (j, y)))).Pairwise
      (fun p q => p.1 < q.1) := by
  intro fuel
  induction fuel with
  | zero => intro i; simp
  | succ n ih =>
    intro i
    rw [List.range'_succ, List.filterMap_cons]
    cases hg : ((xs[i]?).bind ve).map (fun y => (i, y)) with
    | none => exact ih (i + 1)
    | some p =>
      rw [List.pairwise_cons]
      refine ⟨?_, ih (i + 1)⟩
      intro q hq
      have hkey := idx_key_eq ve xs i p hg
      have hb := idx_emit_bounds ve xs n (i + 1) q hq
      omega

/-- Validating the index range `[a, a+n)` of `l` is validating the
corresponding slice of `l`. -/
lemma range_filterMap_seg (ve : JValue → Option JValue) (l : List JValue) :
    ∀ n a, (List.range' a n).filterMap (fun j => (l[j]?).bind ve)
      = ((l.drop a).take n).filterMap ve := by
  intro n
  induction n with
  | zero => intro a; simp
  | succ m ih =>
    intro a
    rw [List.range'_succ, List.filterMap_cons]
    cases ha : l[a]? with
    | none =>
      have hlen : l.length ≤ a := List.getElem?_eq_none_iff.mp ha
      have h1 : l.drop a = [] := List.drop_eq_nil_of_le hlen
      have h2 : l.drop (a + 1) = [] := List.drop_eq_nil_of_le (by omega)
      simp only [ha, Option.none_bind, ih (a + 1), h1, h2]
      simp
    | some x =>
      have hlt : a < l.length := by
        by_contra hc
        rw [List.getElem?_eq_none (by omega)] at ha
        exact Option.noConfusion ha
      have hd : l.drop a = l[a] :: l.drop (a + 1) := List.drop_eq_getElem_cons hlt
      have hx : l[a] = x := by
        rw [List.getElem?_eq_getElem hlt] at ha
        exact Option.some.inj ha
      rw [hd, hx, List.take_succ_cons, List.filterMap_cons]
      cases hv : ve x <;> simp [ha, hv, ih (a + 1)]

/-- `emitLoop` final cursor. -/
lemma emitLoop_fst (ve : JValue → Option JValue) (xs : List JValue) (i stop : Nat) :
    (emitLoop ve xs i stop).1 = max i stop := by
  simp only [emitLoop]
  rw [emitGo_spec]
  simp only []
  omega

/-- `emitLoop` emissions are the validated slice `[i, stop)` of `xs`. -/
lemma emitLoop_snd (ve : JValue → Option JValue) (xs : List JValue) (i stop : Nat) :
    (emitLoop ve xs i stop).2 = ((xs.drop i).take (stop - i)).filterMap ve := by
  simp only [emitLoop]
  rw [emitGo_spec]
  exact range_filterMap_seg ve xs (stop - i) i

/-- Extending the validated prefix `[0, a)` by the validated slice
`[a, b)` gives the validated prefix `[0, max a b)`. -/
lemma filterMap_take_extend (ve : JValue → Option JValue) (l : List JValue) (a b : Nat) :
    (l.take a).filterMap ve ++ ((l.drop a).take (b - a)).filterMap ve
      = (l.take (max a b)).filterMap ve := by
  rcases Nat.le_total b a with hba | hab
  · have h0 : b - a = 0 := by omega
    have hm : max a b = a := by omega
    simp [h0, hm]
  · have hm : max a b = a + (b - a) := by omega
    rw [hm, List.take_add, List.filterMap_append]

/-- A slice of a list that is a prefix of `fs` is the same slice of
`fs`, as long as the slice stays inside the prefix. -/
lemma seg_of_take (fs xs : List JValue) (hxs : xs = fs.take xs.length) (c stop : Nat)
    (hstop : stop ≤ xs.length) :
    (xs.drop c).take (stop - c) = (fs.drop c).take (stop - c) := by
  conv_lhs => rw [hxs]
  rw [List.drop_take, List.take_take]
  congr 1
  omega

/-- If whole-list monadic validation succeeds, `filterMap` keeps every
element and returns the same list. -/
lemma filterMap_of_mapM (ve : JValue → Option JValue) :
    ∀ (xs rs : List JValue), xs.mapM ve = some rs → xs.filterMap ve = rs := by
  intro xs
  induction xs with
  | nil =>
    intro rs h
    simp only [List.mapM_nil, Option.pure_def, Option.some.injEq] at h
    rw [List.filterMap_nil, h]
  | cons x xs ih =>
    intro rs h
    rw [List.mapM_cons] at h
    cases hx : ve x with
    | none => rw [hx] at h; simp at h
    | some y =>
      rw [hx] at h
      cases hxs : xs.mapM ve with
      | none => rw [hxs] at h; simp at h
      | some ys =>
        rw [hxs] at h
        simp only [Option.bind_eq_bind, Option.some_bind, Option.pure_def,
          Option.some.injEq] at h
        rw [List.filterMap_cons, hx, ih ys hxs]
        exact h

/-- A string of length zero is the empty string. -/
lemma string_len_zero (m : String) (h : m.length = 0) : m = "" :=
  String.ext (List.length_eq_zero.mp h)

/-- Projecting the indexed emission loop onto values gives the plain
emission loop. -/
lemma emitGo_map_snd (ve : JValue → Option JValue) (xs : List JValue) (fuel i : Nat) :
    (emitGoIdx ve xs fuel i).1 = (emitGo ve xs fuel i).1
    ∧ ((emitGoIdx ve xs fuel i).2).map Prod.snd = (emitGo ve xs fuel i).2 := by
  rw [emitGo_spec, emitGoIdx_spec]
  refine ⟨rfl, ?_⟩
  rw [List.map_filterMap]
  congr 1
  funext j
  cases (xs[j]?).bind ve <;> rfl

/-- Unfolding of the fragment loop at a non-empty fragment (array
schema). -/
lemma streamSteps_cons_some (sch : Schema) (pj ym : String → Option JValue)
    (st : StState) (m : String) (fs : List (Option String))
    (hm : ¬ m.length = 0) (h : sch.kind = .sarr) :
    streamSteps sch pj ym st (some m :: fs)
      = ((streamSteps sch pj ym (stepArr pj ym sch.elemValidate st m).1 fs).1,
         (stepArr pj ym sch.elemValidate st m).2
           ++ (streamSteps sch pj ym (stepArr pj ym sch.elemValidate st m).1 fs).2) := by
  simp only [streamSteps]
  rw [if_neg hm, if_pos h]

/-- Unfolding of the indexed fragment loop at a non-empty fragment. -/
lemma streamIdxSteps_cons_some (pj ym : String → Option JValue)
    (ve : JValue → Option JValue) (st : StState) (m : String)
    (fs : List (Option String)) (hm : ¬ m.length = 0) :
    streamIdxSteps pj ym ve st (some m :: fs)
      = ((streamIdxSteps pj ym ve (stepArrIdx pj ym ve st m).1 fs).1,
         (stepArrIdx pj ym ve st m).2
           ++ (streamIdxSteps pj ym ve (stepArrIdx pj ym ve st m).1 fs).2) := by
  simp only [streamIdxSteps]
  rw [if_neg hm]

/-- `emitLoop` agrees with its indexed mirror. -/
lemma emitLoop_eq_idx (ve : JValue → Option JValue) (xs : List JValue) (i stop : Nat) :
    (emitLoopIdx ve xs i stop).1 = (emitLoop ve xs i stop).1
    ∧ ((emitLoopIdx ve xs i stop).2).map Prod.snd = (emitLoop ve xs i stop).2 := by
  simp only [emitLoop, emitLoopIdx]
  exact emitGo_map_snd ve xs (stop - i) i

/-- One fragment step agrees with its indexed mirror. -/
lemma stepArr_eq_idx (pj ym : String → Option JValue) (ve : JValue → Option JValue)
    (st : StState) (m : String) :
    (stepArr pj ym ve st m).1 = (stepArrIdx pj ym ve st m).1
    ∧ (stepArr pj ym ve st m).2 = ((stepArrIdx pj ym ve st m).2).map Prod.snd := by
  simp only [stepArr, stepArrIdx]
  cases hp : parseAny pj ym (extractCodeS (st.buffer ++ m))
  case arr xs =>
    have h := emitLoop_eq_idx ve xs st.itemsDone (xs.length - 1)
    exact ⟨(congrArg (StState.mk (st.buffer ++ m)) h.1).symm, h.2.symm⟩
  all_goals exact ⟨rfl, rfl⟩

/-- The fragment loop agrees with its indexed mirror for array schemas. -/
lemma streamSteps_eq_idx (sch : Schema) (pj ym : String → Option JValue)
    (h : sch.kind = .sarr) :
    ∀ frags (st : StState),
      (streamSteps sch pj ym st frags).1
          = (streamIdxSteps pj ym sch.elemValidate st frags).1
      ∧ (streamSteps sch pj ym st frags).2
          = ((streamIdxSteps pj ym sch.elemValidate st frags).2).map Prod.snd := by
  intro frags
  induction frags with
  | nil => intro st; exact ⟨rfl, rfl⟩
  | cons f fs ih =>
    intro st
    cases f with
    | none => simpa only [streamSteps, streamIdxSteps] using ih st
    | some m =>
      by_cases hm : m.length = 0
      · simpa only [streamSteps, streamIdxSteps, hm, if_pos] using ih st
      · have hs := stepArr_eq_idx pj ym sch.elemValidate st m
        rw [streamSteps_cons_some sch pj ym st m fs hm h,
          streamIdxSteps_cons_some pj ym sch.elemValidate st m fs hm]
        constructor
        · show (streamSteps sch pj ym (stepArr pj ym sch.elemValidate st m).1 fs).1
            = (streamIdxSteps pj ym sch.elemValidate
                (stepArrIdx pj ym sch.elemValidate st m).1 fs).1
          rw [hs.1]
          exact (ih _).1
        · show (stepArr pj ym sch.elemValidate st m).2
              ++ (streamSteps sch pj ym (stepArr pj ym sch.elemValidate st m).1 fs).2
            = List.map Prod.snd ((stepArrIdx pj ym sch.elemValidate st m).2
              ++ (streamIdxSteps pj ym sch.elemValidate
                  (stepArrIdx pj ym sch.elemValidate st m).1 fs).2)
          rw [hs.2, hs.1, (ih _).2, List.map_append]

/-- The streamed values are the indexed emissions with the index
forgotten (array schemas). -/
lemma streamRun_eq_idx (sch : Schema) (pj ym : String → Option JValue)
    (h : sch.kind = .sarr) (frags : List (Option String)) :
    streamRun sch pj ym frags
      = (streamIdxRun pj ym sch.elemValidate frags).map Prod.snd := by
  have hs := streamSteps_eq_idx sch pj ym h frags ⟨"", 0⟩
  simp only [streamRun, streamIdxRun, drainArr]
  rw [if_pos h, hs.1, hs.2]
  cases hp : parseAny pj ym
      (extractCodeS (streamIdxSteps pj ym sch.elemValidate ⟨"", 0⟩ frags).1.buffer)
  case arr xs =>
    show List.map Prod.snd (streamIdxSteps pj ym sch.elemValidate ⟨"", 0⟩ frags).2
        ++ (emitLoop sch.elemValidate xs
            (streamIdxSteps pj ym sch.elemValidate ⟨"", 0⟩ frags).1.itemsDone xs.length).2
      = List.map Prod.snd ((streamIdxSteps pj ym sch.elemValidate ⟨"", 0⟩ frags).2
        ++ (emitLoopIdx sch.elemValidate xs
            (streamIdxSteps pj ym sch.elemValidate ⟨"", 0⟩ frags).1.itemsDone xs.length).2)
    rw [List.map_append,
      (emitLoop_eq_idx sch.elemValidate xs
        (streamIdxSteps pj ym sch.elemValidate ⟨"", 0⟩ frags).1.itemsDone xs.length).2]
  all_goals simp

/-- Per-step invariants of the indexed step: the cursor never moves
backwards, and the emitted indices lie in `[old cursor, new cursor)` in
strictly increasing order. -/
lemma stepArrIdx_inv (pj ym : String → Option JValue) (ve : JValue → Option JValue)
    (st : StState) (m : String) :
    st.itemsDone ≤ (stepArrIdx pj ym ve st m).1.itemsDone
    ∧ (∀ p ∈ (stepArrIdx pj ym ve st m).2,
        st.itemsDone ≤ p.1 ∧ p.1 < (stepArrIdx pj ym ve st m).1.itemsDone)
    ∧ ((stepArrIdx pj ym ve st m).2).Pairwise (fun p q => p.1 < q.1) := by
  simp only [stepArrIdx, emitLoopIdx]
  cases hp : parseAny pj ym (extractCodeS (st.buffer ++ m))
  case arr xs =>
    have hspec := emitGoIdx_spec ve xs (xs.length - 1 - st.itemsDone) st.itemsDone
    refine ⟨?_, ?_, ?_⟩
    · show st.itemsDone ≤ (emitGoIdx ve xs (xs.length - 1 - st.itemsDone) st.itemsDone).1
      simp only [hspec]
      omega
    · show ∀ p ∈ (emitGoIdx ve xs (xs.length - 1 - st.itemsDone) st.itemsDone).2,
        st.itemsDone ≤ p.1
        ∧ p.1 < (emitGoIdx ve xs (xs.length - 1 - st.itemsDone) st.itemsDone).1
      simp only [hspec]
      intro p hp2
      have hb := idx_emit_bounds ve xs (xs.length - 1 - st.itemsDone) st.itemsDone p hp2
      omega
    · show ((emitGoIdx ve xs (xs.length - 1 - st.itemsDone) st.itemsDone).2).Pairwise
        (fun p q => p.1 < q.1)
      simp only [hspec]
      exact idx_emit_pairwise ve xs _ _
  all_goals
    refine ⟨Nat.le_refl _, ?_, List.Pairwise.nil⟩
    intro p hp2
    cases hp2

/-- The step-loop invariants compose over a fragment list. -/
lemma streamIdxSteps_inv (pj ym : String → Option JValue) (ve : JValue → Option JValue) :
    ∀ frags (st : StState),
      st.itemsDone ≤ (streamIdxSteps pj ym ve st frags).1.itemsDone
      ∧ (∀ p ∈ (streamIdxSteps pj ym ve st frags).2,
          st.itemsDone ≤ p.1 ∧ p.1 < (streamIdxSteps pj ym ve st frags).1.itemsDone)
      ∧ ((streamIdxSteps pj ym ve st frags).2).Pairwise (fun p q => p.1 < q.1) := by
  intro frags
  induction frags with
  | nil =>
    intro st
    refine ⟨Nat.le_refl _, ?_, List.Pairwise.nil⟩
    intro p hp
    cases hp
  | cons f fs ih =>
    intro st
    cases f with
    | none => simpa only [streamIdxSteps] using ih st
    | some m =>
      by_cases hm : m.length = 0
      · simpa only [streamIdxSteps, hm, if_pos] using ih st
      · rw [streamIdxSteps_cons_some pj ym ve st m fs hm]
        obtain ⟨s1, s2, s3⟩ := stepArrIdx_inv pj ym ve st m
        obtain ⟨t1, t2, t3⟩ := ih (stepArrIdx pj ym ve st m).1
        refine ⟨?_, ?_, ?_⟩
        · show st.itemsDone
            ≤ (streamIdxSteps pj ym ve (stepArrIdx pj ym ve st m).1 fs).1.itemsDone
          omega
        · show ∀ p ∈ (stepArrIdx pj ym ve st m).2
              ++ (streamIdxSteps pj ym ve (stepArrIdx pj ym ve st m).1 fs).2,
            st.itemsDone ≤ p.1
            ∧ p.1 < (streamIdxSteps pj ym ve (stepArrIdx pj ym ve st m).1 fs).1.itemsDone
          intro p hp
          rcases List.mem_append.mp hp with hmem | hmem
          · have := s2 p hmem; omega
          · have := t2 p hmem; omega
        · show ((stepArrIdx pj ym ve st m).2
              ++ (streamIdxSteps pj ym ve (stepArrIdx pj ym ve st m).1 fs).2).Pairwise
            (fun p q => p.1 < q.1)
          rw [List.pairwise_append]
          refine ⟨s3, t3, ?_⟩
          intro a ha b hb
          have h1 := s2 a ha
          have h2 := t2 b hb
          omega

/-- The full indexed emission trace (steps plus drain) is strictly
increasing in the source index. -/
lemma streamIdxRun_pairwise (pj ym : String → Option JValue)
    (ve : JValue → Option JValue) (frags : List (Option String)) :
    (streamIdxRun pj ym ve frags).Pairwise (fun p q => p.1 < q.1) := by
  obtain ⟨t1, t2, t3⟩ := streamIdxSteps_inv pj ym ve frags ⟨"", 0⟩
  simp only [streamIdxRun]
  cases hp : parseAny pj ym
      (extractCodeS (streamIdxSteps pj ym ve ⟨"", 0⟩ frags).1.buffer)
  case arr xs =>
    show ((streamIdxSteps pj ym ve ⟨"", 0⟩ frags).2
        ++ (emitLoopIdx ve xs (streamIdxSteps pj ym ve ⟨"", 0⟩ frags).1.itemsDone
            xs.length).2).Pairwise (fun p q => p.1 < q.1)
    simp only [emitLoopIdx]
    rw [emitGoIdx_spec, List.pairwise_append]
    refine ⟨t3, ?_, ?_⟩
    · exact idx_emit_pairwise ve xs _ _
    · intro a ha b hb
      have h1 := t2 a ha
      have h2 := idx_emit_bounds ve xs
        (xs.length - (streamIdxSteps pj ym ve ⟨"", 0⟩ frags).1.itemsDone)
        (streamIdxSteps pj ym ve ⟨"", 0⟩ frags).1.itemsDone b hb
      omega
  all_goals exact t3

/-- For every non-array schema the fragment loop leaves the state
untouched and yields exactly the non-empty raw fragments. -/
lemma streamSteps_nonarr (sch : Schema) (pj ym : String → Option JValue)
    (h : ¬ sch.kind = .sarr) :
    ∀ frags (st : StState),
      streamSteps sch pj ym st frags
        = (st, frags.filterMap (fun f => f.bind
            (fun m => if m.length = 0 then none else some (JValue.str m)))) := by
  intro frags
  induction frags with
  | nil => intro st; rfl
  | cons f fs ih =>
    intro st
    cases f with
    | none => simp [streamSteps, ih st]
    | some m =>
      by_cases hm : m.length = 0
      · simp [streamSteps, hm, ih st]
      · simp [streamSteps, hm, h, ih st]

/-- `stepArr` unfolded at an array-shaped candidate. -/
lemma stepArr_eq_arr (pj ym : String → Option JValue) (ve : JValue → Option JValue)
    (st : StState) (m : String) (xs : List JValue)
    (hp : parseAny pj ym (extractCodeS (st.buffer ++ m)) = JValue.arr xs) :
    stepArr pj ym ve st m
      = (⟨st.buffer ++ m, (emitLoop ve xs st.itemsDone (xs.length - 1)).1⟩,
         (emitLoop ve xs st.itemsDone (xs.length - 1)).2) := by
  simp only [stepArr]
  rw [hp]

/-- `stepArrIdx` unfolded at an array-shaped candidate. -/
lemma stepArrIdx_eq_arr (pj ym : String → Option JValue) (ve : JValue → Option JValue)
    (st : StState) (m : String) (xs : List JValue)
    (hp : parseAny pj ym (extractCodeS (st.buffer ++ m)) = JValue.arr xs) :
    stepArrIdx pj ym ve st m
      = (⟨st.buffer ++ m, (emitLoopIdx ve xs st.itemsDone (xs.length - 1)).1⟩,
         (emitLoopIdx ve xs st.itemsDone (xs.length - 1)).2) := by
  simp only [stepArrIdx]
  rw [hp]

/-- `stepArr` unfolded at a non-array candidate: buffer appended, no
emission, cursor unchanged. -/
lemma stepArr_eq_notarr (pj ym : String → Option JValue) (ve : JValue → Option JValue)
    (st : StState) (m : String) (v : JValue)
    (hp : parseAny pj ym (extractCodeS (st.buffer ++ m)) = v)
    (hv : ∀ xs, ¬ v = JValue.arr xs) :
    stepArr pj ym ve st m = (⟨st.buffer ++ m, st.itemsDone⟩, []) := by
  simp only [stepArr]
  rw [hp]
  cases v
  case arr xs => exact absurd rfl (hv xs)
  all_goals rfl

/-- Main growth lemma for the refinement claim: if every intermediate
candidate array is a prefix of `fs`, the fragment loop appends exactly
the fragments to the buffer and has emitted, at any point, exactly the
validated elements of `fs` below the cursor. -/
lemma streamSteps_grow (sch : Schema) (pj ym : String → Option JValue)
    (h : sch.kind = .sarr) (fs : List JValue) :
    ∀ frags (st : StState),
      (∀ k xs, parseAny pj ym (extractCodeS (st.buffer ++ fullTextOf (frags.take k)))
          = JValue.arr xs → xs = fs.take xs.length) →
      (streamSteps sch pj ym st frags).1.buffer = st.buffer ++ fullTextOf frags
      ∧ (fs.take st.itemsDone).filterMap sch.elemValidate
            ++ (streamSteps sch pj ym st frags).2
          = (fs.take (streamSteps sch pj ym st frags).1.itemsDone).filterMap
              sch.elemValidate := by
  intro frags
  induction frags with
  | nil =>
    intro st hpre
    constructor
    · show st.buffer = st.buffer ++ fullTextOf []
      rw [show fullTextOf [] = "" from rfl, String.append_empty]
    · show (fs.take st.itemsDone).filterMap sch.elemValidate ++ []
        = (fs.take st.itemsDone).filterMap sch.elemValidate
      exact List.append_nil _
  | cons f fs2 ih =>
    intro st hpre
    cases f with
    | none => exact ih st (fun k xs hk => hpre (k + 1) xs hk)
    | some m =>
      by_cases hm : m.length = 0
      · have hme : m = "" := string_len_zero m hm
        subst hme
        exact ih st (fun k xs hk => hpre (k + 1) xs hk)
      · have hpre2 : ∀ k xs,
            parseAny pj ym (extractCodeS (st.buffer ++ m ++ fullTextOf (fs2.take k)))
              = JValue.arr xs → xs = fs.take xs.length := by
          intro k xs hk
          apply hpre (k + 1) xs
          have e : st.buffer ++ fullTextOf ((some m :: fs2).take (k + 1))
              = st.buffer ++ m ++ fullTextOf (fs2.take k) := by
            rw [List.take_succ_cons]
            show st.buffer ++ (m ++ fullTextOf (fs2.take k)) = _
            rw [String.append_assoc]
          rw [e]
          exact hk
        rw [streamSteps_cons_some sch pj ym st m fs2 hm h]
        by_cases hiscode : ∃ xs, parseAny pj ym (extractCodeS (st.buffer ++ m))
            = JValue.arr xs
        · obtain ⟨xs, hc⟩ := hiscode
          have hxs : xs = fs.take xs.length := by
            apply hpre 1 xs
            have e : st.buffer ++ fullTextOf ((some m :: fs2).take 1) = st.buffer ++ m := by
              show st.buffer ++ (m ++ fullTextOf ([] : List (Option String)))
                = st.buffer ++ m
              show st.buffer ++ (m ++ "") = st.buffer ++ m
              rw [String.append_empty]
            rw [e]
            exact hc
          have hbuf1 : (stepArr pj ym sch.elemValidate st m).1.buffer = st.buffer ++ m := by
            rw [stepArr_eq_arr pj ym sch.elemValidate st m xs hc]
          have hcur1 : (stepArr pj ym sch.elemValidate st m).1.itemsDone
              = (emitLoop sch.elemValidate xs st.itemsDone (xs.length - 1)).1 := by
            rw [stepArr_eq_arr pj ym sch.elemValidate st m xs hc]
          have hout1 : (stepArr pj ym sch.elemValidate st m).2
              = (emitLoop sch.elemValidate xs st.itemsDone (xs.length - 1)).2 := by
            rw [stepArr_eq_arr pj ym sch.elemValidate st m xs hc]
          have hpre3 : ∀ k xs2,
              parseAny pj ym (extractCodeS
                ((stepArr pj ym sch.elemValidate st m).1.buffer
                  ++ fullTextOf (fs2.take k)))
                = JValue.arr xs2 → xs2 = fs.take xs2.length := by
            intro k xs2 hk2
            rw [hbuf1] at hk2
            exact hpre2 k xs2 hk2
          have hih := ih (stepArr pj ym sch.elemValidate st m).1 hpre3
          have hstep : (fs.take st.itemsDone).filterMap sch.elemValidate
              ++ (emitLoop sch.elemValidate xs st.itemsDone (xs.length - 1)).2
              = (fs.take (emitLoop sch.elemValidate xs st.itemsDone
                  (xs.length - 1)).1).filterMap sch.elemValidate := by
            rw [emitLoop_snd, emitLoop_fst]
            rw [seg_of_take fs xs hxs st.itemsDone (xs.length - 1) (by omega)]
            exact filterMap_take_extend sch.elemValidate fs st.itemsDone (xs.length - 1)
          constructor
          · show (streamSteps sch pj ym
                (stepArr pj ym sch.elemValidate st m).1 fs2).1.buffer
              = st.buffer ++ fullTextOf (some m :: fs2)
            rw [hih.1, hbuf1]
            show st.buffer ++ m ++ fullTextOf fs2 = st.buffer ++ (m ++ fullTextOf fs2)
            rw [String.append_assoc]
          · show (fs.take st.itemsDone).filterMap sch.elemValidate
                ++ ((stepArr pj ym sch.elemValidate st m).2
                  ++ (streamSteps sch pj ym
                      (stepArr pj ym sch.elemValidate st m).1 fs2).2)
              = (fs.take (streamSteps sch pj ym
                  (stepArr pj ym sch.elemValidate st m).1 fs2).1.itemsDone).filterMap
                sch.elemValidate
            rw [hout1, ← List.append_assoc, hstep, ← hcur1]
            exact hih.2
        · have hnot : ∀ xs, ¬ parseAny pj ym (extractCodeS (st.buffer ++ m))
              = JValue.arr xs := by
            intro xs hcon
            exact hiscode ⟨xs, hcon⟩
          have hbuf1 : (stepArr pj ym sch.elemValidate st m).1.buffer = st.buffer ++ m := by
            rw [stepArr_eq_notarr pj ym sch.elemValidate st m _ rfl hnot]
          have hcur1 : (stepArr pj ym sch.elemValidate st m).1.itemsDone
              = st.itemsDone := by
            rw [stepArr_eq_notarr pj ym sch.elemValidate st m _ rfl hnot]
          have hout1 : (stepArr pj ym sch.elemValidate st m).2 = [] := by
            rw [stepArr_eq_notarr pj ym sch.elemValidate st m _ rfl hnot]
          have hpre3 : ∀ k xs2,
              parseAny pj ym (extractCodeS
                ((stepArr pj ym sch.elemValidate st m).1.buffer
                  ++ fullTextOf (fs2.take k)))
                = JValue.arr xs2 → xs2 = fs.take xs2.length := by
            intro k xs2 hk2
            rw [hbuf1] at hk2
            exact hpre2 k xs2 hk2
          have hih := ih (stepArr pj ym sch.elemValidate st m).1 hpre3
          constructor
          · show (streamSteps sch pj ym
                (stepArr pj ym sch.elemValidate st m).1 fs2).1.buffer
              = st.buffer ++ fullTextOf (some m :: fs2)
            rw [hih.1, hbuf1]
            show st.buffer ++ m ++ fullTextOf fs2 = st.buffer ++ (m ++ fullTextOf fs2)
            rw [String.append_assoc]
          · show (fs.take st.itemsDone).filterMap sch.elemValidate
                ++ ((stepArr pj ym sch.elemValidate st m).2
                  ++ (streamSteps sch pj ym
                      (stepArr pj ym sch.elemValidate st m).1 fs2).2)
              = (fs.take (streamSteps sch pj ym
                  (stepArr pj ym sch.elemValidate st m).1 fs2).1.itemsDone).filterMap
                sch.elemValidate
            rw [hout1, List.nil_append, ← hcur1]
            exact hih.2

/-! # Claim theorems -/

/-- Claim C1 (counterexample): for an Object-shaped schema the stream is
not silent — the code's branch is only "array or not", so an object
schema falls into the raw-text branch and the stream yields the raw
fragment `"hi"`, contradicting "yields no items for an Object-shaped
schema". -/
theorem stream_object_counterexample :
    streamRun objSchema cpj cym [some "hi"] = [JValue.str "hi"]
    ∧ ¬ streamRun objSchema cpj cym [some "hi"] = ([] : List JValue) := by
  refine ⟨rfl, ?_⟩
  intro hcon
  rw [show streamRun objSchema cpj cym [some "hi"] = [JValue.str "hi"] from rfl] at hcon
  exact List.cons_ne_nil _ _ hcon

/-- Claim C1 (amended): under an Object-shaped schema the stream behaves
exactly as under a Text-shaped schema: every fragment with non-empty
string content is yielded raw and immediately, and neither element-level
emission nor any drain-phase emission occurs (the emitted list is
exactly the raw passthrough of the fragments). -/
theorem stream_object_raw_passthrough (sch : Schema) (pj ym : String → Option JValue)
    (frags : List (Option String)) (h : sch.kind = .sobj) :
    streamRun sch pj ym frags
      = frags.filterMap (fun f => f.bind
          (fun m => if m.length = 0 then none else some (JValue.str m))) := by
  have hne : ¬ sch.kind = .sarr := by
    rw [h]
    intro hc
    exact SchemaKind.noConfusion hc
  simp only [streamRun]
  rw [if_neg hne, streamSteps_nonarr sch pj ym hne frags ⟨"", 0⟩]

/-- Witness for C1's amended theorem at a concrete object schema and
fragment list (a real fragment, a content-less delta, and an empty
fragment). -/
theorem stream_object_raw_passthrough_witness :
    streamRun objSchema cpj cym [some "ab", none, some ""] = [JValue.str "ab"] := by
  rw [stream_object_raw_passthrough objSchema cpj cym [some "ab", none, some ""] rfl]
  rfl

/-- Claim C2 (confirmed): on a non-empty fragment whose accumulated
candidate is an array `xs`, the step emits, for every index from the
cursor up to but excluding the last index, the element exactly when the
element validator accepts it (skipped indices are never retried since
the cursor ends at `max cursor (|xs| - 1)`); the indexed mirror shows
every mid-stream emission has index strictly below the last index; and
at drain every remaining element through the final one inclusive is
validated and yielded when valid. -/
theorem seq_step_emission (pj ym : String → Option JValue) (ve : JValue → Option JValue)
    (st : StState) (m : String) (xs : List JValue)
    (h : parseAny pj ym (extractCodeS (st.buffer ++ m)) = JValue.arr xs) :
    (stepArr pj ym ve st m).2
        = (List.range' st.itemsDone (xs.length - 1 - st.itemsDone)).filterMap
            (fun i => (xs[i]?).bind ve)
    ∧ (stepArr pj ym ve st m).1.itemsDone = max st.itemsDone (xs.length - 1)
    ∧ (∀ p ∈ (stepArrIdx pj ym ve st m).2,
        st.itemsDone ≤ p.1 ∧ p.1 < xs.length - 1)
    ∧ (stepArr pj ym ve st m).2 = ((stepArrIdx pj ym ve st m).2).map Prod.snd
    ∧ (∀ st2 : StState, parseAny pj ym (extractCodeS st2.buffer) = JValue.arr xs →
        drainArr pj ym ve st2
          = (List.range' st2.itemsDone (xs.length - st2.itemsDone)).filterMap
              (fun i => (xs[i]?).bind ve)) := by
  refine ⟨?_, ?_, ?_, (stepArr_eq_idx pj ym ve st m).2, ?_⟩
  · rw [stepArr_eq_arr pj ym ve st m xs h]
    exact congrArg Prod.snd
      (emitGo_spec ve xs (xs.length - 1 - st.itemsDone) st.itemsDone)
  · rw [stepArr_eq_arr pj ym ve st m xs h]
    exact emitLoop_fst ve xs st.itemsDone (xs.length - 1)
  · intro p hp
    rw [stepArrIdx_eq_arr pj ym ve st m xs h] at hp
    have hp2 : p ∈ (emitGoIdx ve xs (xs.length - 1 - st.itemsDone) st.itemsDone).2 := hp
    simp only [emitGoIdx_spec] at hp2
    have hb := idx_emit_bounds ve xs (xs.length - 1 - st.itemsDone) st.itemsDone p hp2
    omega
  · intro st2 h2
    simp only [drainArr]
    rw [h2]
    exact congrArg Prod.snd
      (emitGo_spec ve xs (xs.length - st2.itemsDone) st2.itemsDone)

/-- Witness for C2 at a concrete step: a fresh stream receiving
`"[1,2,3]"` emits `1` and `2` and leaves the cursor at 2; the drain from
that state emits the final `3`. -/
theorem seq_step_emission_witness :
    (stepArr cpj cym numValidate ⟨"", 0⟩ "[1,2,3]").2 = [JValue.num 1, JValue.num 2]
    ∧ (stepArr cpj cym numValidate ⟨"", 0⟩ "[1,2,3]").1.itemsDone = 2
    ∧ drainArr cpj cym numValidate ⟨"[1,2,3]", 2⟩ = [JValue.num 3] := by
  have H := seq_step_emission cpj cym numValidate ⟨"", 0⟩ "[1,2,3]"
    [JValue.num 1, JValue.num 2, JValue.num 3] rfl
  refine ⟨?_, ?_, ?_⟩
  · rw [H.1]
    rfl
  · rw [H.2.1]
    decide
  · rw [H.2.2.2.2 ⟨"[1,2,3]", 2⟩ rfl]
    rfl

/-- Claim C3 (counterexample): the cursor can exceed the number of
elements in the current candidate.  After `"[1,2,3]"` (cursor reaches
2), an opening fence re-windows the buffer; after the next fragment
`"[9]"` the candidate is the one-element array `[9]` while the cursor is
still 2, violating "the cursor never exceeds the number of elements
currently present in the candidate value". -/
theorem seq_cursor_overrun_counterexample :
    (streamSteps arrSchema cpj cym ⟨"", 0⟩ fragsShrink).1.itemsDone = 2
    ∧ parseAny cpj cym
        (extractCodeS (streamSteps arrSchema cpj cym ⟨"", 0⟩ fragsShrink).1.buffer)
        = JValue.arr [JValue.num 9]
    ∧ ¬ (2 : Nat) ≤ ([JValue.num 9] : List JValue).length :=
  ⟨rfl, rfl, by decide⟩

/-- Claim C3 (amended): for a Sequence-shaped schema the emitted values
are the indexed emission trace with indices forgotten; that trace is
strictly increasing in the source index (hence no index is emitted
twice and emission is in ascending index order), and the cursor is
monotonically non-decreasing across every fragment step.  (The claim's
fourth conjunct — cursor never exceeding the current candidate's length
— fails, see the counterexample.) -/
theorem seq_stream_invariants (sch : Schema) (pj ym : String → Option JValue)
    (frags : List (Option String)) (h : sch.kind = .sarr) :
    streamRun sch pj ym frags
        = (streamIdxRun pj ym sch.elemValidate frags).map Prod.snd
    ∧ (streamIdxRun pj ym sch.elemValidate frags).Pairwise (fun p q => p.1 < q.1)
    ∧ ∀ st m, st.itemsDone ≤ (stepArr pj ym sch.elemValidate st m).1.itemsDone :=
  ⟨streamRun_eq_idx sch pj ym h frags,
   streamIdxRun_pairwise pj ym sch.elemValidate frags,
   fun st m => by
     rw [(stepArr_eq_idx pj ym sch.elemValidate st m).1]
     exact (stepArrIdx_inv pj ym sch.elemValidate st m).1⟩

/-- Witness for C3's amended theorem at a concrete array schema and
fragment list. -/
theorem seq_stream_invariants_witness :
    streamRun arrSchema cpj cym fragsShrink
        = (streamIdxRun cpj cym arrSchema.elemValidate fragsShrink).map Prod.snd
    ∧ (streamIdxRun cpj cym arrSchema.elemValidate fragsShrink).Pairwise
        (fun p q => p.1 < q.1)
    ∧ ∀ st m, st.itemsDone
        ≤ (stepArr cpj cym arrSchema.elemValidate st m).1.itemsDone :=
  seq_stream_invariants arrSchema cpj cym fragsShrink rfl

/-- Claim C4 (counterexample): the stream/batch equivalence fails when a
fence appears mid-stream.  Over the fragments `"[1,2,3]"` and
`"\n` ++ "```" ++ `\n[9]\n` ++ "```" ++ `"` the stream emits `1, 2`,
while the batch run over the concatenated text extracts only `[9]` and
returns it; the emitted sequence does not equal the batch array's valid
elements. -/
theorem seq_refinement_counterexample :
    streamRun arrSchema cpj cym fragsRewindow = [JValue.num 1, JValue.num 2]
    ∧ fullTextOf fragsRewindow = "[1,2,3]\n```\n[9]\n```"
    ∧ run arrSchema cpj cym (some (fullTextOf fragsRewindow))
        = some (JValue.arr [JValue.num 9])
    ∧ ¬ streamRun arrSchema cpj cym fragsRewindow = [JValue.num 9] := by
  refine ⟨rfl, rfl, rfl, ?_⟩
  intro hcon
  rw [show streamRun arrSchema cpj cym fragsRewindow
      = [JValue.num 1, JValue.num 2] from rfl] at hcon
  injection hcon with h1 h2
  injection h1 with h3
  exact absurd h3 (by decide)

/-- Claim C4 (amended): the emitted source indices are strictly
increasing; and under the additional hypothesis that every mid-stream
candidate array is a prefix of the batch candidate array `fs` over the
concatenated text, the stream emits exactly the element-valid entries of
`fs` in order — in particular, whenever the batch run returns an array,
the stream over the same fragments emits exactly its elements. -/
theorem seq_stream_batch_refinement (sch : Schema) (pj ym : String → Option JValue)
    (frags : List (Option String)) (fs : List JValue)
    (hk : sch.kind = .sarr)
    (hv : sch.validate = arrValidate sch.elemValidate)
    (hbatch : parseAny pj ym (extractCodeS (fullTextOf frags)) = JValue.arr fs)
    (hpre : ∀ k xs, parseAny pj ym (extractCodeS (fullTextOf (frags.take k)))
        = JValue.arr xs → xs = fs.take xs.length) :
    ((streamIdxRun pj ym sch.elemValidate frags).map Prod.fst).Pairwise (· < ·)
    ∧ streamRun sch pj ym frags = fs.filterMap sch.elemValidate
    ∧ ∀ rs, run sch pj ym (some (fullTextOf frags)) = some (JValue.arr rs) →
        streamRun sch pj ym frags = rs := by
  have hmain := streamSteps_grow sch pj ym hk fs frags ⟨"", 0⟩
    (fun k xs hk2 => hpre k xs hk2)
  have hbuf : (streamSteps sch pj ym ⟨"", 0⟩ frags).1.buffer = fullTextOf frags :=
    hmain.1.trans (String.empty_append _)
  have hsteps : (streamSteps sch pj ym ⟨"", 0⟩ frags).2
      = (fs.take (streamSteps sch pj ym ⟨"", 0⟩ frags).1.itemsDone).filterMap
          sch.elemValidate := by
    have h2 := hmain.2
    simpa using h2
  have hout : streamRun sch pj ym frags = fs.filterMap sch.elemValidate := by
    simp only [streamRun]
    rw [if_pos hk]
    have hdrain : drainArr pj ym sch.elemValidate
        (streamSteps sch pj ym ⟨"", 0⟩ frags).1
        = (fs.drop (streamSteps sch pj ym ⟨"", 0⟩ frags).1.itemsDone).filterMap
            sch.elemValidate := by
      simp only [drainArr]
      rw [hbuf, hbatch]
      show (emitLoop sch.elemValidate fs
          (streamSteps sch pj ym ⟨"", 0⟩ frags).1.itemsDone fs.length).2 = _
      rw [emitLoop_snd]
      congr 1
      exact List.take_of_length_le (le_of_eq (List.length_drop _ _))
    rw [hsteps, hdrain, ← List.filterMap_append, List.take_append_drop]
  refine ⟨?_, hout, ?_⟩
  · rw [List.pairwise_map]
    exact streamIdxRun_pairwise pj ym sch.elemValidate frags
  · intro rs hrun
    have hdata : runData sch pj ym (fullTextOf frags)
        = parseAny pj ym (extractCodeS (fullTextOf frags)) := by
      simp [runData, hk]
    have hrun2 : sch.validate (runData sch pj ym (fullTextOf frags))
        = some (JValue.arr rs) := hrun
    rw [hdata, hbatch, hv] at hrun2
    simp only [arrValidate] at hrun2
    cases hm2 : fs.mapM sch.elemValidate with
    | none =>
      rw [hm2] at hrun2
      exact absurd hrun2 (by simp)
    | some rs2 =>
      rw [hm2] at hrun2
      simp only [Option.map_some', Option.some.injEq] at hrun2
      injection hrun2 with h3
      rw [hout, ← h3]
      exact filterMap_of_mapM sch.elemValidate fs rs2 hm2

/-- Witness for C4's amended theorem: over the growing fragments
`"[1,"`, `"2,3]"` the stream emits exactly the batch array `[1, 2, 3]`. -/
theorem seq_stream_batch_refinement_witness :
    streamRun arrSchema cpj cym fragsGrow
      = [JValue.num 1, JValue.num 2, JValue.num 3] := by
  have hpre : ∀ k xs, parseAny cpj cym (extractCodeS (fullTextOf (fragsGrow.take k)))
      = JValue.arr xs
      → xs = List.take xs.length [JValue.num 1, JValue.num 2, JValue.num 3] := by
    intro k xs hk2
    rcases k with _ | k1
    · have h0 : JValue.null = JValue.arr xs := hk2
      exact JValue.noConfusion h0
    rcases k1 with _ | k2
    · have h1 : JValue.arr [JValue.num 1] = JValue.arr xs := hk2
      have h2 : xs = [JValue.num 1] := by
        injection h1 with h3
        rw [← h3]
      rw [h2]
      rfl
    · have h3 : List.take (k2 + 1 + 1) fragsGrow = fragsGrow :=
        List.take_of_length_le (by simp [fragsGrow])
      rw [h3] at hk2
      have h4 : JValue.arr [JValue.num 1, JValue.num 2, JValue.num 3]
          = JValue.arr xs := hk2
      have h5 : xs = [JValue.num 1, JValue.num 2, JValue.num 3] := by
        injection h4 with h6
        rw [← h6]
      rw [h5]
      rfl
  have H := seq_stream_batch_refinement arrSchema cpj cym fragsGrow
    [JValue.num 1, JValue.num 2, JValue.num 3] rfl rfl rfl hpre
  rw [H.2.1]
  rfl

/-- Claim C5 (confirmed): the extractor returns the input unchanged when
the fence regex has no match, everything strictly after the single match
when there is exactly one, and exactly the text strictly between the end
of the first match and the start of the second when there are two or
more, ignoring all later matches. -/
theorem extract_window_cases (t : List Char) :
    (matchAllFence t = [] → extractCode t = t)
    ∧ (∀ i n, matchAllFence t = [(i, n)] → extractCode t = t.drop (i + n))
    ∧ (∀ i n j m rest, matchAllFence t = (i, n) :: (j, m) :: rest →
        extractCode t = (t.take j).drop (i + n)) := by
  refine ⟨?_, ?_, ?_⟩
  · intro hm
    simp only [extractCode, hm]
  · intro i n hm
    simp only [extractCode, hm]
  · intro i n j m rest hm
    simp only [extractCode, hm]

/-- Witness for C5 at concrete inputs: a fenceless text is returned
unchanged; a single open fence yields the tail; two fences yield the
enclosed block only. -/
theorem extract_window_cases_witness :
    extractCode "no fences here".data = "no fences here".data
    ∧ extractCode "a\n```\nrest".data = "rest".data
    ∧ extractCode "a\n```\nb\n```\nc".data = "b".data := by
  refine ⟨?_, ?_, ?_⟩
  · exact (extract_window_cases "no fences here".data).1 rfl
  · rw [(extract_window_cases "a\n```\nrest".data).2.1 1 5 rfl]
    rfl
  · rw [(extract_window_cases "a\n```\nb\n```\nc".data).2.2 1 5 7 5 [] rfl]
    rfl

/-- Claim C6 (counterexample): with four-backtick fences the extracted
window is `"` ++ "`" ++ `\nhello"`, not the text strictly between the
delimiter lines (`"hello"`): the surplus backtick leaks into the
window. -/
theorem fence_four_backticks_counterexample :
    extractCodeS "\n````\nhello\n````\n" = "`\nhello"
    ∧ ¬ extractCodeS "\n````\nhello\n````\n" = "hello" :=
  ⟨rfl, by decide⟩

/-- Claim C6 (amended): a fence line carrying more than three backticks
is still located as a delimiter, but the match consumes only the leading
newline and the first three backticks — the surplus backticks are left
in place, so the extracted window is not the text strictly between the
delimiter lines (concretely, the four-backtick example leaves a stray
backtick and newline at the head of the window). -/
theorem fence_longer_marker (l : List Char) :
    matchLen ('\n' :: '`' :: '`' :: '`' :: '`' :: l) = some 4
    ∧ extractCode "\n````\nhello\n````\n".data = '`' :: '\n' :: "hello".data :=
  ⟨rfl, rfl⟩

/-- Claim C7 (confirmed): the tolerant parser is a total function equal
to the spec's fixed-priority cascade — it returns the partial-JSON
result when that parser succeeds, otherwise the YAML result when that
one succeeds, otherwise the raw input text; being a total Lean function
it never fails, so a candidate value always exists. -/
theorem parse_priority_total (pj ym : String → Option JValue) (t : String) :
    parseAny pj ym t = parseAnySpec pj ym t
    ∧ (∀ v, pj t = some v → parseAny pj ym t = v)
    ∧ (∀ v, pj t = none → ym t = some v → parseAny pj ym t = v)
    ∧ (pj t = none → ym t = none → parseAny pj ym t = JValue.str t) := by
  refine ⟨?_, ?_, ?_, ?_⟩
  · simp only [parseAny, parseAnySpec]
    cases hp : pj t <;> cases hy : ym t <;> simp [Option.orElse, Option.getD]
  · intro v hv
    simp [parseAny, hv]
  · intro v hp hy
    simp [parseAny, hp, hy]
  · intro hp hy
    simp [parseAny, hp, hy]

/-- Witness for C7 at concrete inputs exercising all three priority
levels: `"5"` parses as partial JSON, `""` falls through to YAML
(null), and `"~nope"` falls through to the raw text. -/
theorem parse_priority_total_witness :
    parseAny cpj cym "5" = parseAnySpec cpj cym "5"
    ∧ parseAny cpj cym "5" = JValue.num 5
    ∧ parseAny cpj cym "" = JValue.null
    ∧ parseAny cpj cym "~nope" = JValue.str "~nope" :=
  ⟨(parse_priority_total cpj cym "5").1,
   (parse_priority_total cpj cym "5").2.1 (JValue.num 5) rfl,
   (parse_priority_total cpj cym "").2.2.1 JValue.null rfl rfl,
   (parse_priority_total cpj cym "~nope").2.2.2 rfl rfl⟩

/-- Claim C8 (confirmed): a batch run with no textual content is absent
immediately — independently of the parsers and the validator, so no
extraction or parsing can influence it; with content present the run
returns `some v` exactly when whole-schema validation of the candidate
returns `some v`, and is absent exactly when validation fails — never a
partial result. -/
theorem run_batch_contract (sch : Schema) (pj ym : String → Option JValue) :
    run sch pj ym none = none
    ∧ (∀ m v, run sch pj ym (some m) = some v
        ↔ sch.validate (runData sch pj ym m) = some v)
    ∧ (∀ m, run sch pj ym (some m) = none
        ↔ sch.validate (runData sch pj ym m) = none) :=
  ⟨rfl, fun _ _ => Iff.rfl, fun _ => Iff.rfl⟩

/-- Claim C9 (confirmed): for a schema that is neither string, array nor
object (e.g. a bare number schema), the batch run applies no fence
extraction but does apply tolerant parsing to the whole raw message
before validating. -/
theorem run_other_schema (sch : Schema) (pj ym : String → Option JValue) (m : String)
    (h : sch.kind = .sother) :
    run sch pj ym (some m) = sch.validate (parseAny pj ym m) := by
  show sch.validate (runData sch pj ym m) = sch.validate (parseAny pj ym m)
  congr 1
  simp [runData, h]

/-- Witness for C9 at a number schema and the message `"5"`. -/
theorem run_other_schema_witness :
    run numSchema cpj cym (some "5") = some (JValue.num 5) := by
  rw [run_other_schema numSchema cpj cym "5" rfl]
  rfl

/-- Claim C10 (confirmed): `this.model ?? options?.model` prefers the
client-level default, so a prompt created with a different per-prompt
model still uses the client default; the per-prompt model takes effect
only when the client has none. -/
theorem prompt_model_precedence (c o : String) (_hne : ¬ o = c) (hc : ¬ c = "")
    (ho : ¬ o = "") :
    promptModel (some c) (some o) = Except.ok c
    ∧ promptModel none (some o) = Except.ok o
    ∧ promptModel (some c) none = Except.ok c := by
  refine ⟨?_, ?_, ?_⟩ <;> simp [promptModel, hc, ho]

/-- Witness for C10 at two distinct concrete model names. -/
theorem prompt_model_precedence_witness :
    promptModel (some "model-a") (some "model-b") = Except.ok "model-a"
    ∧ promptModel none (some "model-b") = Except.ok "model-b"
    ∧ promptModel (some "model-a") none = Except.ok "model-a" :=
  prompt_model_precedence "model-a" "model-b" (by decide) (by decide) (by decide)

end PromptPig
